import Mathlib

/-!
Verification of the structural value serializer `toJSON` from
`src/compiler/packages/sprout/src/shared-runtime.ts` (lines 238-270).

The serializer is `JSON.stringify(value, replacer)` where the replacer
  - turns a zero-parameter function into a tagged record holding its invoked
    result when `invokeFns` is set, and otherwise into the placeholder string
    made of the text "[[ function params=", the declared parameter count and
    " ]]";
  - for a value with `typeof val === "object"` (which in JavaScript includes
    `null`) first looks the value up in the call-local `seen` map (keyed by
    reference identity) and, when found, returns the string made of
    "[[ cyclic ref *", the stored id and " ]]";
  - otherwise re-expresses a `Map` as a tagged record with its entry list and
    a `Set` as a tagged record with its element list, returning *before* the
    value is recorded in `seen`;
  - otherwise records the value in `seen` under id `seen.size` and lets
    `JSON.stringify` descend into it.

The embedding below makes reference identity explicit with a heap of
numbered objects, and makes the recursion of `JSON.stringify` explicit with
a fuel parameter: a result of `none` at every fuel models the real code's
non-termination (unbounded recursion), and `some` for some fuel models a
terminating run.  JavaScript numbers are modelled as integers (the claims
under study involve only integer literals, never fractional or non-finite
numbers).  A zero-parameter function value carries the value it returns when
invoked, modelling a deterministic, effect-free callee as the claims assume.
-/

/-- A reference into the heap: the identity of a composite value. -/
abbrev Ref := Nat

/-- A JavaScript runtime value as consumed by `toJSON`.  Composites live in
the heap and are referred to by `ref`, so that reference identity (what the
code's `seen` map is keyed by) is explicit.  `fn n ret` is a function value
with declared parameter count `n` that returns `ret` when invoked with no
arguments. -/
inductive JSVal : Type where
  | null : JSVal
  | undef : JSVal
  | bool : Bool → JSVal
  | num : Int → JSVal
  | str : String → JSVal
  | fn : Nat → JSVal → JSVal
  | ref : Ref → JSVal
deriving DecidableEq, Repr

/-- A heap-allocated composite: a keyed record, an array, a Map (ordered
entry list, keys may be any value) or a Set (ordered element list). -/
inductive HObj : Type where
  | obj : List (String × JSVal) → HObj
  | arr : List JSVal → HObj
  | map : List (JSVal × JSVal) → HObj
  | set : List JSVal → HObj
deriving DecidableEq, Repr

/-- The heap: object `ref r` is the `r`-th entry. -/
abbrev Heap := List HObj

/-- Heap lookup; a dangling reference behaves as an empty record (real
JavaScript has no dangling references, so this default is never exercised by
well-formed inputs). -/
def Heap.get (h : Heap) (r : Ref) : HObj := List.getD h r (HObj.obj [])

/-- A key of the code's `seen` map.  Only values with
`typeof val === "object"` reach the lookup: heap references and — because
`typeof null === "object"` in JavaScript — the value `null`. -/
inductive SKey : Type where
  | null : SKey
  | ref : Ref → SKey
deriving DecidableEq, Repr

/-- The call-local `seen` registry: an association of keys to ids plus the
JavaScript `Map.size`.  `size` also counts registrations of the fresh arrays
created while re-expressing Maps and Sets, whose identities can never be
looked up again; those only advance the id counter. -/
structure Seen : Type where
  entries : List (SKey × Nat)
  size : Nat
deriving DecidableEq, Repr

/-- First-match association lookup. -/
def Seen.find : List (SKey × Nat) → SKey → Option Nat
  | [], _ => none
  | (k, i) :: rest, key => if k = key then some i else Seen.find rest key

/-- `seen.get(val)` of the code. -/
def Seen.get (s : Seen) (k : SKey) : Option Nat := Seen.find s.entries k

/-- `seen.set(val, seen.size)` of the code (only ever called on a key that is
not yet present). -/
def Seen.set (s : Seen) (k : SKey) : Seen :=
  { entries := (k, s.size) :: s.entries, size := s.size + 1 }

/-- Registration of a freshly created wrapper array: its identity is new and
never looked up again, so only the size counter advances. -/
def Seen.bump (s : Seen) : Seen := { s with size := s.size + 1 }

/-- The registry at the start of a `toJSON` call. -/
def Seen.empty : Seen := { entries := [], size := 0 }

/-- Whether a key is registered. -/
def Seen.mem (s : Seen) (k : SKey) : Bool := (Seen.get s k).isSome

/-- Lower-case hexadecimal digit, for JSON control-character escapes. -/
def hexDigit (n : Nat) : String :=
  if n = 10 then "a" else if n = 11 then "b" else if n = 12 then "c"
  else if n = 13 then "d" else if n = 14 then "e" else if n = 15 then "f"
  else toString n

/-- JSON escaping of one character, as `JSON.stringify` quotes strings. -/
def escChar (c : Char) : String :=
  if c = '"' then "\\\""
  else if c = '\\' then "\\\\"
  else if c = Char.ofNat 8 then "\\b"
  else if c = Char.ofNat 9 then "\\t"
  else if c = Char.ofNat 10 then "\\n"
  else if c = Char.ofNat 12 then "\\f"
  else if c = Char.ofNat 13 then "\\r"
  else if c.toNat < 32 then "\\u00" ++ hexDigit (c.toNat / 16) ++ hexDigit (c.toNat % 16)
  else String.singleton c

/-- A JSON string literal: the quoted, escaped text. -/
def jstr (s : String) : String := "\"" ++ String.join (s.data.map escChar) ++ "\""

/-- The cyclic-reference marker text built at line 254 of the source. -/
def cycMarker (id : Nat) : String := "[[ cyclic ref *" ++ toString id ++ " ]]"

/-- The function placeholder text built at line 249 of the source. -/
def fnMarker (n : Nat) : String := "[[ function params=" ++ toString n ++ " ]]"

/-- JSON array text from rendered elements. -/
def renderArr (elems : List String) : String := "[" ++ String.intercalate "," elems ++ "]"

/-- JSON object text from rendered fields. -/
def renderObj (fields : List String) : String := "\x7b" ++ String.intercalate "," fields ++ "\x7d"

/-- One rendered object field. -/
def renderField (k : String) (v : String) : String := jstr k ++ ":" ++ v

/-- The serialized invocation wrapper of lines 244-247: kind "Function" plus
the encoded result; a result of `undefined` is omitted by `JSON.stringify`. -/
def renderFnWrap : Option String → String
  | none => "\x7b\"kind\":\"Function\"\x7d"
  | some s => "\x7b\"kind\":\"Function\",\"result\":" ++ s ++ "\x7d"

/-- The serialized Map/Set wrapper of lines 256-264: a kind tag plus the
rendered value array. -/
def renderTagged (tag : String) (arrText : String) : String :=
  "\x7b\"kind\":\"" ++ tag ++ "\",\"value\":" ++ arrText ++ "\x7d"

/-- Serialize the fields of a keyed record, threading the registry through
`rec` (the serializer one fuel level down).  A field whose value serializes
to `undefined` is omitted, as `JSON.stringify` does. -/
def serFieldsF (rec : Seen → JSVal → Option (Option String × Seen)) :
    Seen → List (String × JSVal) → Option (List String × Seen)
  | seen, [] => some ([], seen)
  | seen, (k, v) :: rest =>
    match rec seen v with
    | none => none
    | some (r, seen1) =>
      match serFieldsF rec seen1 rest with
      | none => none
      | some (parts, seen2) =>
        match r with
        | none => some (parts, seen2)
        | some s => some (renderField k s :: parts, seen2)

/-- Serialize array elements; an element that serializes to `undefined`
becomes the text "null", as `JSON.stringify` does. -/
def serElemsF (rec : Seen → JSVal → Option (Option String × Seen)) :
    Seen → List JSVal → Option (List String × Seen)
  | seen, [] => some ([], seen)
  | seen, v :: rest =>
    match rec seen v with
    | none => none
    | some (r, seen1) =>
      match serElemsF rec seen1 rest with
      | none => none
      | some (parts, seen2) => some (r.getD "null" :: parts, seen2)

/-- Serialize the entry list of a Map wrapper.  Each entry of
`Array.from(map.entries())` is a fresh two-element array: it passes through
the replacer, misses the registry and is registered (advancing the size
counter) before its key and value are serialized. -/
def serPairsF (rec : Seen → JSVal → Option (Option String × Seen)) :
    Seen → List (JSVal × JSVal) → Option (List String × Seen)
  | seen, [] => some ([], seen)
  | seen, (k, v) :: rest =>
    match rec (Seen.bump seen) k with
    | none => none
    | some (rk, seen1) =>
      match rec seen1 v with
      | none => none
      | some (rv, seen2) =>
        match serPairsF rec seen2 rest with
        | none => none
        | some (parts, seen3) =>
          some (renderArr [rk.getD "null", rv.getD "null"] :: parts, seen3)

/-- One step of the serializer: the replacer of lines 241-268 followed by
`JSON.stringify`'s rendering of the replaced value, with recursion into
children delegated to `rec`.  Result `some (none, seen)` is a value that
serializes to `undefined`; `some (some text, seen)` is rendered text. -/
def serStep (h : Heap) (inv : Bool)
    (rec : Seen → JSVal → Option (Option String × Seen))
    (seen : Seen) (v : JSVal) : Option (Option String × Seen) :=
  match v with
  | .undef => some (none, seen)
  | .bool b => some (some (if b then "true" else "false"), seen)
  | .num n => some (some (toString n), seen)
  | .str s => some (some (jstr s), seen)
  | .fn arity ret =>
    if arity = 0 ∧ inv = true then
      match rec seen ret with
      | none => none
      | some (r, seen1) => some (some (renderFnWrap r), seen1)
    else some (some (jstr (fnMarker arity)), seen)
  | .null =>
    match Seen.get seen SKey.null with
    | some id => some (some (jstr (cycMarker id)), seen)
    | none => some (some "null", Seen.set seen SKey.null)
  | .ref r =>
    match Seen.get seen (SKey.ref r) with
    | some id => some (some (jstr (cycMarker id)), seen)
    | none =>
      match Heap.get h r with
      | .map es =>
        match serPairsF rec (Seen.bump seen) es with
        | none => none
        | some (parts, seen1) => some (some (renderTagged "Map" (renderArr parts)), seen1)
      | .set es =>
        match serElemsF rec (Seen.bump seen) es with
        | none => none
        | some (parts, seen1) => some (some (renderTagged "Set" (renderArr parts)), seen1)
      | .obj fields =>
        match serFieldsF rec (Seen.set seen (SKey.ref r)) fields with
        | none => none
        | some (parts, seen1) => some (some (renderObj parts), seen1)
      | .arr es =>
        match serElemsF rec (Seen.set seen (SKey.ref r)) es with
        | none => none
        | some (parts, seen1) => some (some (renderArr parts), seen1)

/-- The fuelled serializer: `ser h inv fuel seen v` runs the replacer-driven
traversal with at most `fuel` nested levels; `none` means the fuel ran out. -/
def ser (h : Heap) (inv : Bool) : Nat → Seen → JSVal → Option (Option String × Seen)
  | 0 => fun _ _ => none
  | fuel + 1 => serStep h inv (ser h inv fuel)

/-- The fuelled embedding of `toJSON(value, invokeFns)` (source lines
238-270): a fresh empty registry, then `JSON.stringify` with the replacer.
`some none` is JavaScript's `JSON.stringify` returning `undefined` (which
happens when the replaced top-level value is `undefined`); `none` means the
fuel ran out at every level, i.e. the real code recurses without bound. -/
def toJSON (fuel : Nat) (h : Heap) (value : JSVal) (invokeFns : Bool) : Option (Option String) :=
  match ser h invokeFns fuel Seen.empty value with
  | none => none
  | some (r, _) => some r

/-- The real `toJSON` call diverges on this input: no amount of fuel
completes the traversal. -/
def Diverges (h : Heap) (v : JSVal) (inv : Bool) : Prop :=
  ∀ fuel, toJSON fuel h v inv = none

/-- The real `toJSON` call terminates on this input with output `s`: every
sufficiently large fuel yields exactly `s`. -/
def Outputs (h : Heap) (v : JSVal) (inv : Bool) (fuel : Nat) (s : String) : Prop :=
  ∀ m, fuel ≤ m → toJSON m h v inv = some (some s)

/-- Every reference occurring in the value (including inside function return
values) points into a heap of `n` objects. -/
def JSVal.wfB (n : Nat) : JSVal → Bool
  | .ref r => decide (r < n)
  | .fn _ ret => JSVal.wfB n ret
  | _ => true

/-- Every reference stored in the object points into a heap of `n` objects. -/
def HObj.wfB (n : Nat) : HObj → Bool
  | .obj fs => fs.all fun kv => JSVal.wfB n kv.2
  | .arr es => es.all (JSVal.wfB n)
  | .map es => es.all fun kv => JSVal.wfB n kv.1 && JSVal.wfB n kv.2
  | .set es => es.all (JSVal.wfB n)

/-- A closed heap: no dangling references. -/
def Heap.wfB (h : Heap) : Bool := h.all (HObj.wfB h.length)

/-- The heap contains no Map and no Set. -/
def Heap.noMapSetB (h : Heap) : Bool :=
  h.all fun o =>
    match o with
    | .map _ => false
    | .set _ => false
    | _ => true

/-- A plain composite: a keyed record or an array (the kinds the code
records in the registry before descending). -/
def HObj.isPlain : HObj → Bool
  | .obj _ => true
  | .arr _ => true
  | _ => false

/-- How many heap objects are not yet registered. -/
def unseenCount (h : Heap) (s : Seen) : Nat :=
  ((List.range h.length).filter fun r => ! Seen.mem s (SKey.ref r)).length

/-- The array value of `toJSON([null, null])`: one array whose two elements
are both the primitive `null`. -/
def nullPairHeap : Heap := [HObj.arr [JSVal.null, JSVal.null]]

/-- The graph of spec §8.3: `shared = \x7bv:1\x7d` and the argument
`\x7ba: shared, b: shared\x7d`; object 0 is the argument, object 1 is
`shared`, referenced by both fields. -/
def sharedHeap : Heap :=
  [HObj.obj [("a", JSVal.ref 1), ("b", JSVal.ref 1)],
   HObj.obj [("v", JSVal.num 1)]]

/-- The graph of spec §8.1: one object whose field `self` references the
object itself. -/
def selfObjHeap : Heap := [HObj.obj [("self", JSVal.ref 0)]]

/-- The graph of spec §8.2: an array holding two distinct empty objects. -/
def twoEmptyHeap : Heap := [HObj.arr [JSVal.ref 1, JSVal.ref 2], HObj.obj [], HObj.obj []]

/-- A Map with the single entry of key "k" and value 1, at the top level. -/
def mapKHeap : Heap := [HObj.map [(JSVal.str "k", JSVal.num 1)]]

/-- A Set with elements 1 and 2, at the top level. -/
def set12Heap : Heap := [HObj.set [JSVal.num 1, JSVal.num 2]]

/-- An array holding the same Map reference twice (an acyclic shared
reference to a composite that is a Map). -/
def sharedMapHeap : Heap :=
  [HObj.arr [JSVal.ref 1, JSVal.ref 1], HObj.map [(JSVal.str "k", JSVal.num 1)]]

/-- A Set whose only element is the Set itself: `s = new Set(); s.add(s)`. -/
def selfSetHeap : Heap := [HObj.set [JSVal.ref 0]]

/-- The per-input property claimed by C3: whenever the call completes, it
hands back a string. -/
def ReturnsString (h : Heap) (v : JSVal) (inv : Bool) : Prop :=
  ∀ fuel r, toJSON fuel h v inv = some r → ∃ s, r = some s

/-- Registry growth: everything registered in the first registry is
registered, with the same id, in the second. -/
def Seen.Pres (s1 s2 : Seen) : Prop :=
  ∀ k i, Seen.get s1 k = some i → Seen.get s2 k = some i

theorem ser_zero (h : Heap) (inv : Bool) (seen : Seen) (v : JSVal) :
    ser h inv 0 seen v = none := rfl

theorem ser_succ (h : Heap) (inv : Bool) (fuel : Nat) (seen : Seen) (v : JSVal) :
    ser h inv (fuel + 1) seen v = serStep h inv (ser h inv fuel) seen v := rfl

theorem serFieldsF_mono_rec (rec rec' : Seen → JSVal → Option (Option String × Seen))
    (hrec : ∀ s w res, rec s w = some res → rec' s w = some res) :
    ∀ seen l res, serFieldsF rec seen l = some res → serFieldsF rec' seen l = some res := by
  intro seen l
  induction l generalizing seen with
  | nil => intro res hres; simpa [serFieldsF] using hres
  | cons kv rest ih =>
    intro res hres
    obtain ⟨k, v⟩ := kv
    cases hr : rec seen v with
    | none => simp [serFieldsF, hr] at hres
    | some p =>
      obtain ⟨r, seen1⟩ := p
      cases hrest : serFieldsF rec seen1 rest with
      | none => simp [serFieldsF, hr, hrest] at hres
      | some q =>
        obtain ⟨parts, seen2⟩ := q
        simp only [serFieldsF, hr, hrest] at hres
        simp only [serFieldsF, hrec _ _ _ hr, ih seen1 _ hrest]
        exact hres

theorem serElemsF_mono_rec (rec rec' : Seen → JSVal → Option (Option String × Seen))
    (hrec : ∀ s w res, rec s w = some res → rec' s w = some res) :
    ∀ seen l res, serElemsF rec seen l = some res → serElemsF rec' seen l = some res := by
  intro seen l
  induction l generalizing seen with
  | nil => intro res hres; simpa [serElemsF] using hres
  | cons v rest ih =>
    intro res hres
    cases hr : rec seen v with
    | none => simp [serElemsF, hr] at hres
    | some p =>
      obtain ⟨r, seen1⟩ := p
      cases hrest : serElemsF rec seen1 rest with
      | none => simp [serElemsF, hr, hrest] at hres
      | some q =>
        obtain ⟨parts, seen2⟩ := q
        simp only [serElemsF, hr, hrest] at hres
        simp only [serElemsF, hrec _ _ _ hr, ih seen1 _ hrest]
        exact hres

theorem serPairsF_mono_rec (rec rec' : Seen → JSVal → Option (Option String × Seen))
    (hrec : ∀ s w res, rec s w = some res → rec' s w = some res) :
    ∀ seen l res, serPairsF rec seen l = some res → serPairsF rec' seen l = some res := by
  intro seen l
  induction l generalizing seen with
  | nil => intro res hres; simpa [serPairsF] using hres
  | cons kv rest ih =>
    intro res hres
    obtain ⟨k, v⟩ := kv
    cases hk : rec (Seen.bump seen) k with
    | none => simp [serPairsF, hk] at hres
    | some p =>
      obtain ⟨rk, seen1⟩ := p
      cases hv : rec seen1 v with
      | none => simp [serPairsF, hk, hv] at hres
      | some q =>
        obtain ⟨rv, seen2⟩ := q
        cases hrest : serPairsF rec seen2 rest with
        | none => simp [serPairsF, hk, hv, hrest] at hres
        | some w =>
          obtain ⟨parts, seen3⟩ := w
          simp only [serPairsF, hk, hv, hrest] at hres
          simp only [serPairsF, hrec _ _ _ hk, hrec _ _ _ hv, ih seen2 _ hrest]
          exact hres

theorem serStep_mono_rec (h : Heap) (inv : Bool)
    (rec rec' : Seen → JSVal → Option (Option String × Seen))
    (hrec : ∀ s w res, rec s w = some res → rec' s w = some res) :
    ∀ seen v res, serStep h inv rec seen v = some res → serStep h inv rec' seen v = some res := by
  intro seen v res hres
  cases v with
  | undef => exact hres
  | bool b => exact hres
  | num n => exact hres
  | str s => exact hres
  | null => exact hres
  | fn arity ret =>
    by_cases hc : arity = 0 ∧ inv = true
    · cases hr : rec seen ret with
      | none => simp [serStep, if_pos hc, hr] at hres
      | some p =>
        obtain ⟨r, seen1⟩ := p
        simp only [serStep, if_pos hc, hr] at hres
        simp only [serStep, if_pos hc, hrec _ _ _ hr]
        exact hres
    · simp only [serStep, if_neg hc] at hres ⊢
      exact hres
  | ref r =>
    cases hg : Seen.get seen (SKey.ref r) with
    | some id =>
      simp only [serStep, hg] at hres ⊢
      exact hres
    | none =>
      cases ho : Heap.get h r with
      | map es =>
        cases hp : serPairsF rec (Seen.bump seen) es with
        | none => simp [serStep, hg, ho, hp] at hres
        | some p =>
          obtain ⟨parts, seen1⟩ := p
          simp only [serStep, hg, ho, hp] at hres
          simp only [serStep, hg, ho, serPairsF_mono_rec rec rec' hrec _ _ _ hp]
          exact hres
      | set es =>
        cases hp : serElemsF rec (Seen.bump seen) es with
        | none => simp [serStep, hg, ho, hp] at hres
        | some p =>
          obtain ⟨parts, seen1⟩ := p
          simp only [serStep, hg, ho, hp] at hres
          simp only [serStep, hg, ho, serElemsF_mono_rec rec rec' hrec _ _ _ hp]
          exact hres
      | obj fields =>
        cases hp : serFieldsF rec (Seen.set seen (SKey.ref r)) fields with
        | none => simp [serStep, hg, ho, hp] at hres
        | some p =>
          obtain ⟨parts, seen1⟩ := p
          simp only [serStep, hg, ho, hp] at hres
          simp only [serStep, hg, ho, serFieldsF_mono_rec rec rec' hrec _ _ _ hp]
          exact hres
      | arr es =>
        cases hp : serElemsF rec (Seen.set seen (SKey.ref r)) es with
        | none => simp [serStep, hg, ho, hp] at hres
        | some p =>
          obtain ⟨parts, seen1⟩ := p
          simp only [serStep, hg, ho, hp] at hres
          simp only [serStep, hg, ho, serElemsF_mono_rec rec rec' hrec _ _ _ hp]
          exact hres

theorem ser_mono (h : Heap) (inv : Bool) :
    ∀ fuel seen v res, ser h inv fuel seen v = some res →
      ser h inv (fuel + 1) seen v = some res := by
  intro fuel
  induction fuel with
  | zero => intro seen v res hres; rw [ser_zero] at hres; exact absurd hres (by simp)
  | succ fuel ih =>
    intro seen v res hres
    rw [ser_succ] at hres
    rw [ser_succ]
    exact serStep_mono_rec h inv _ _ (fun s w r hr => ih s w r hr) seen v res hres

theorem ser_mono_le (h : Heap) (inv : Bool) {fuel fuel' : Nat} (hle : fuel ≤ fuel') :
    ∀ seen v res, ser h inv fuel seen v = some res → ser h inv fuel' seen v = some res := by
  induction hle with
  | refl => intro seen v res hres; exact hres
  | step _ ih =>
    intro seen v res hres
    exact ser_mono h inv _ seen v res (ih seen v res hres)

theorem toJSON_mono_le {h : Heap} {inv : Bool} {fuel fuel' : Nat} (hle : fuel ≤ fuel')
    {r : Option String} (hres : toJSON fuel h v inv = some r) :
    toJSON fuel' h v inv = some r := by
  unfold toJSON at hres ⊢
  cases hser : ser h inv fuel Seen.empty v with
  | none => rw [hser] at hres; exact absurd hres (by simp)
  | some p =>
    rw [hser] at hres
    rw [ser_mono_le h inv hle _ _ _ hser]
    exact hres

theorem outputs_of {h : Heap} {v : JSVal} {inv : Bool} {fuel : Nat} {s : String}
    (hres : toJSON fuel h v inv = some (some s)) : Outputs h v inv fuel s :=
  fun _ hm => toJSON_mono_le hm hres

/-- C4.  The claim says every occurrence of `null` encodes as the native
`null` literal.  The code disagrees: `typeof null === "object"` in
JavaScript, so the replacer registers `null` in the `seen` map at its first
occurrence (here with id 1, after the outer array took id 0) and emits the
cyclic-reference marker for its second occurrence.  `toJSON([null, null])`
returns the text of `[null,"[[ cyclic ref *1 ]]"]`, not `[null,null]`.
The spec's table (primitives as native literals) is clearly the intent and
the unguarded `typeof` test a slip, so this is recorded as a code bug. -/
theorem C4_second_null_gets_cyclic_marker :
    toJSON 5 nullPairHeap (JSVal.ref 0) false =
      some (some "[null,\"[[ cyclic ref *1 ]]\"]") ∧
    toJSON 5 nullPairHeap (JSVal.ref 0) false ≠ some (some "[null,null]") ∧
    Outputs nullPairHeap (JSVal.ref 0) false 5 "[null,\"[[ cyclic ref *1 ]]\"]" :=
  ⟨rfl, by decide, outputs_of rfl⟩

/-- C5 counterexample.  The claim predicts that `shared` is assigned id 0
and field `b` encodes as the marker with id 0.  It does not: the replacer is
applied to the top-level object first, which therefore takes id 0, and
`shared` takes id 1 at its first visit. -/
theorem C5_claimed_id_zero_false :
    toJSON 6 sharedHeap (JSVal.ref 0) false ≠
      some (some "\x7b\"a\":\x7b\"v\":1\x7d,\"b\":\"[[ cyclic ref *0 ]]\"\x7d") := by decide

/-- C5 (amended).  For `shared = \x7bv:1\x7d`,
`serialize(\x7ba: shared, b: shared\x7d)` encodes field `a` as the object
text of `shared` — which is assigned id 1 at its first visit, the top-level
argument itself having been assigned id 0 — and encodes field `b` as the
string literal of `[[ cyclic ref *1 ]]` at the second visit to the same
reference. -/
theorem C5_shared_gets_id_one :
    toJSON 6 sharedHeap (JSVal.ref 0) false =
      some (some "\x7b\"a\":\x7b\"v\":1\x7d,\"b\":\"[[ cyclic ref *1 ]]\"\x7d") ∧
    Outputs sharedHeap (JSVal.ref 0) false 6
      "\x7b\"a\":\x7b\"v\":1\x7d,\"b\":\"[[ cyclic ref *1 ]]\"\x7d" :=
  ⟨rfl, outputs_of rfl⟩

/-- C6.  For an object `a` whose field references `a` itself, `serialize(a)`
terminates (every fuel from 4 up yields the same result) and the
self-referencing field encodes as the string literal of
`[[ cyclic ref *0 ]]`: `a` is the first composite visited, registered with
id 0 before its fields are traversed, so the inner visit finds it. -/
theorem C6_self_cycle_marker_zero :
    toJSON 4 selfObjHeap (JSVal.ref 0) false =
      some (some "\x7b\"self\":\"[[ cyclic ref *0 ]]\"\x7d") ∧
    Outputs selfObjHeap (JSVal.ref 0) false 4 "\x7b\"self\":\"[[ cyclic ref *0 ]]\"\x7d" :=
  ⟨rfl, outputs_of rfl⟩

/-- C7.  For `x = \x7b\x7d`, `y = \x7b\x7d` of distinct identity,
`serialize([x, y])` encodes both as empty-object text — the registry is
keyed by reference identity (distinct heap references), so `y` is not
conflated with `x` into a cyclic-reference marker. -/
theorem C7_distinct_empty_objects_not_conflated :
    toJSON 5 twoEmptyHeap (JSVal.ref 0) false = some (some "[\x7b\x7d,\x7b\x7d]") ∧
    toJSON 5 twoEmptyHeap (JSVal.ref 0) false ≠
      some (some "[\x7b\x7d,\"[[ cyclic ref *1 ]]\"]") ∧
    Outputs twoEmptyHeap (JSVal.ref 0) false 5 "[\x7b\x7d,\x7b\x7d]" :=
  ⟨rfl, by decide, outputs_of rfl⟩

/-- C9.  A map with entries `[["k",1]]` serializes to exactly the tagged
record with kind "Map" and value `[["k",1]]`, and a set with elements
`[1,2]` to the tagged record with kind "Set" and value `[1,2]`, entries and
elements in the container's own iteration order (the model's list order). -/
theorem C9_map_set_reexpression :
    toJSON 6 mapKHeap (JSVal.ref 0) false =
      some (some "\x7b\"kind\":\"Map\",\"value\":[[\"k\",1]]\x7d") ∧
    Outputs mapKHeap (JSVal.ref 0) false 6 "\x7b\"kind\":\"Map\",\"value\":[[\"k\",1]]\x7d" ∧
    toJSON 6 set12Heap (JSVal.ref 0) false =
      some (some "\x7b\"kind\":\"Set\",\"value\":[1,2]\x7d") ∧
    Outputs set12Heap (JSVal.ref 0) false 6 "\x7b\"kind\":\"Set\",\"value\":[1,2]\x7d" :=
  ⟨rfl, outputs_of rfl, rfl, outputs_of rfl⟩

/-- C2 counterexample.  The claim includes Maps and Sets among the composites
whose second occurrence is emitted as a cyclic-reference marker.  But the
replacer returns the Map wrapper *before* the `seen.set` line, so a Map is
never registered: serializing an array holding the same Map twice re-expands
the Map both times, and in particular the second occurrence is not the
marker with id 1 (the id a first visit would have assigned, the array having
taken id 0). -/
theorem C2_shared_map_not_marked :
    toJSON 12 sharedMapHeap (JSVal.ref 0) false =
      some (some ("[\x7b\"kind\":\"Map\",\"value\":[[\"k\",1]]\x7d," ++
        "\x7b\"kind\":\"Map\",\"value\":[[\"k\",1]]\x7d]")) ∧
    toJSON 12 sharedMapHeap (JSVal.ref 0) false ≠
      some (some ("[\x7b\"kind\":\"Map\",\"value\":[[\"k\",1]]\x7d," ++
        "\"[[ cyclic ref *1 ]]\"]")) :=
  ⟨rfl, by decide⟩

theorem selfSet_ser_none (inv : Bool) :
    ∀ fuel seen, Seen.get seen (SKey.ref 0) = none →
      ser selfSetHeap inv fuel seen (JSVal.ref 0) = none := by
  intro fuel
  induction fuel with
  | zero => intro seen _; rfl
  | succ fuel ih =>
    intro seen hg
    have hb : Seen.get (Seen.bump seen) (SKey.ref 0) = none := hg
    have hrec := ih (Seen.bump seen) hb
    have hh : Heap.get selfSetHeap 0 = HObj.set [JSVal.ref 0] := rfl
    rw [ser_succ]
    simp [serStep, hg, hh, serElemsF, hrec]

/-- C1 counterexample.  A Set containing itself defeats the cycle
substitution: the replacer re-expresses a Set *before* the line that would
record it in the registry, so the Set is never found on revisit and is
re-expanded forever (each round creating fresh wrapper arrays that can never
match).  The embedding returns `none` at every fuel, the image of the real
code's unbounded recursion.  The same holds for a self-containing Map. -/
theorem C1_self_set_diverges : Diverges selfSetHeap (JSVal.ref 0) false := by
  intro fuel
  unfold toJSON
  rw [selfSet_ser_none false fuel Seen.empty rfl]

theorem ser_result_some {h : Heap} {inv : Bool} :
    ∀ {fuel : Nat} {seen seen' : Seen} {v : JSVal} {r : Option String},
      v ≠ JSVal.undef → ser h inv fuel seen v = some (r, seen') → ∃ s, r = some s := by
  intro fuel seen seen' v r hv hser
  cases fuel with
  | zero => rw [ser_zero] at hser; exact absurd hser (by simp)
  | succ fuel =>
    rw [ser_succ] at hser
    cases v with
    | undef => exact absurd rfl hv
    | null =>
      cases hg : Seen.get seen SKey.null with
      | some id =>
        simp only [serStep, hg, Option.some.injEq, Prod.mk.injEq] at hser
        exact ⟨_, hser.1.symm⟩
      | none =>
        simp only [serStep, hg, Option.some.injEq, Prod.mk.injEq] at hser
        exact ⟨_, hser.1.symm⟩
    | bool b =>
      simp only [serStep, Option.some.injEq, Prod.mk.injEq] at hser
      exact ⟨_, hser.1.symm⟩
    | num n =>
      simp only [serStep, Option.some.injEq, Prod.mk.injEq] at hser
      exact ⟨_, hser.1.symm⟩
    | str s =>
      simp only [serStep, Option.some.injEq, Prod.mk.injEq] at hser
      exact ⟨_, hser.1.symm⟩
    | fn arity ret =>
      by_cases hc : arity = 0 ∧ inv = true
      · cases hr : ser h inv fuel seen ret with
        | none => simp [serStep, if_pos hc, hr] at hser
        | some p =>
          obtain ⟨r1, s1⟩ := p
          simp only [serStep, if_pos hc, hr, Option.some.injEq, Prod.mk.injEq] at hser
          exact ⟨_, hser.1.symm⟩
      · simp only [serStep, if_neg hc, Option.some.injEq, Prod.mk.injEq] at hser
        exact ⟨_, hser.1.symm⟩
    | ref rr =>
      cases hg : Seen.get seen (SKey.ref rr) with
      | some id =>
        simp only [serStep, hg, Option.some.injEq, Prod.mk.injEq] at hser
        exact ⟨_, hser.1.symm⟩
      | none =>
        cases ho : Heap.get h rr with
        | map es =>
          cases hp : serPairsF (ser h inv fuel) (Seen.bump seen) es with
          | none => simp [serStep, hg, ho, hp] at hser
          | some p =>
            obtain ⟨parts, s1⟩ := p
            simp only [serStep, hg, ho, hp, Option.some.injEq, Prod.mk.injEq] at hser
            exact ⟨_, hser.1.symm⟩
        | set es =>
          cases hp : serElemsF (ser h inv fuel) (Seen.bump seen) es with
          | none => simp [serStep, hg, ho, hp] at hser
          | some p =>
            obtain ⟨parts, s1⟩ := p
            simp only [serStep, hg, ho, hp, Option.some.injEq, Prod.mk.injEq] at hser
            exact ⟨_, hser.1.symm⟩
        | obj fields =>
          cases hp : serFieldsF (ser h inv fuel) (Seen.set seen (SKey.ref rr)) fields with
          | none => simp [serStep, hg, ho, hp] at hser
          | some p =>
            obtain ⟨parts, s1⟩ := p
            simp only [serStep, hg, ho, hp, Option.some.injEq, Prod.mk.injEq] at hser
            exact ⟨_, hser.1.symm⟩
        | arr es =>
          cases hp : serElemsF (ser h inv fuel) (Seen.set seen (SKey.ref rr)) es with
          | none => simp [serStep, hg, ho, hp] at hser
          | some p =>
            obtain ⟨parts, s1⟩ := p
            simp only [serStep, hg, ho, hp, Option.some.injEq, Prod.mk.injEq] at hser
            exact ⟨_, hser.1.symm⟩

/-- C3 counterexample.  The claim says every runtime value, undefined
included, maps to some textual form.  At the top level it does not:
`toJSON(undefined)` is `JSON.stringify(undefined, replacer)`, the replacer
returns `undefined` unchanged, and `JSON.stringify` then returns the value
`undefined` — no string at all (the model's `some none`). -/
theorem C3_undefined_returns_no_string :
    ¬ ReturnsString ([] : Heap) JSVal.undef false := by
  intro hrs
  obtain ⟨s, hs⟩ := hrs 1 none rfl
  exact absurd hs (by simp)

/-- C3 (amended).  For every input value other than the bare `undefined`,
any completed call returns a string: every replacer branch other than the
`undefined` fall-through produces either a string marker or a composite that
renders to object/array text, so there is indeed no unrepresentable-value
failure mode — but a top-level `undefined` yields no string, and a cyclic
Map/Set graph never completes at all (see C1). -/
theorem C3_string_unless_undefined :
    ∀ (h : Heap) (v : JSVal) (inv : Bool), v ≠ JSVal.undef → ReturnsString h v inv := by
  intro h v inv hv fuel r htj
  unfold toJSON at htj
  cases hser : ser h inv fuel Seen.empty v with
  | none => rw [hser] at htj; exact absurd htj (by simp)
  | some p =>
    obtain ⟨r1, s1⟩ := p
    rw [hser] at htj
    simp only [Option.some.injEq] at htj
    subst htj
    exact ser_result_some hv hser

/-- C3 witness: a concrete non-undefined value enjoys the property. -/
theorem C3_string_unless_undefined_witness :
    ReturnsString ([] : Heap) (JSVal.bool true) false :=
  C3_string_unless_undefined [] (JSVal.bool true) false (by simp)

/-- C8.  A function value reached during traversal with the invocation flag
set and declared parameter count 0 is invoked and encodes as the tagged
record with kind "Function" and the recursively encoded return value; in
every other case it encodes as the string literal made of
"[[ function params=", the declared count and " ]]". -/
theorem C8_function_dispatch :
    ∀ (h : Heap) (inv : Bool) (fuel : Nat) (seen : Seen) (n : Nat) (ret : JSVal),
      (¬ (n = 0 ∧ inv = true) →
        ser h inv (fuel + 1) seen (JSVal.fn n ret) =
          some (some (jstr (fnMarker n)), seen)) ∧
      (∀ s seen', n = 0 → inv = true →
        ser h inv fuel seen ret = some (some s, seen') →
        ser h inv (fuel + 1) seen (JSVal.fn n ret) =
          some (some ("\x7b\"kind\":\"Function\",\"result\":" ++ s ++ "\x7d"), seen')) := by
  intro h inv fuel seen n ret
  constructor
  · intro hc
    rw [ser_succ]
    simp [serStep, if_neg hc]
  · intro s seen' hn hinv hser
    subst hn
    subst hinv
    rw [ser_succ]
    simp [serStep, hser, renderFnWrap]

/-- C8 witness: a 2-parameter function encodes as its placeholder, and a
0-parameter function returning 5 encodes, under invocation, as the tagged
record with result 5 (spec §8.5 and §8.6). -/
theorem C8_function_dispatch_witness :
    ser [] false 1 Seen.empty (JSVal.fn 2 JSVal.null) =
      some (some (jstr (fnMarker 2)), Seen.empty) ∧
    ser [] true 2 Seen.empty (JSVal.fn 0 (JSVal.num 5)) =
      some (some "\x7b\"kind\":\"Function\",\"result\":5\x7d", Seen.empty) :=
  ⟨(C8_function_dispatch [] false 0 Seen.empty 2 JSVal.null).1 (by simp),
   (C8_function_dispatch [] true 1 Seen.empty 0 (JSVal.num 5)).2 "5" Seen.empty rfl rfl rfl⟩

/-- C10.  Two calls on the same graph with the same flag return identical
results, and each call is a pure function of graph, value and flag run from
the fresh empty registry — in this embedding the registry is created inside
`toJSON` and no state survives a call, so determinism is congruence.  The
model's function values are deterministic and effect-free, matching the
claim's proviso. -/
theorem C10_determinism (h h' : Heap) (v v' : JSVal) (b b' : Bool) (fuel : Nat)
    (hh : h' = h) (hv : v' = v) (hb : b' = b) :
    toJSON fuel h' v' b' = toJSON fuel h v b ∧
    toJSON fuel h v b = Option.map Prod.fst (ser h b fuel Seen.empty v) := by
  subst hh
  subst hv
  subst hb
  refine ⟨rfl, ?_⟩
  unfold toJSON
  cases hs : ser h' b' fuel Seen.empty v' with
  | none => rfl
  | some p => obtain ⟨r1, s1⟩ := p; rfl

/-- C10 witness at the shared-reference graph. -/
theorem C10_determinism_witness :
    toJSON 6 sharedHeap (JSVal.ref 0) false = toJSON 6 sharedHeap (JSVal.ref 0) false ∧
    toJSON 6 sharedHeap (JSVal.ref 0) false =
      Option.map Prod.fst (ser sharedHeap false 6 Seen.empty (JSVal.ref 0)) :=
  C10_determinism sharedHeap sharedHeap (JSVal.ref 0) (JSVal.ref 0) false false 6 rfl rfl rfl

theorem Seen.Pres.refl (s : Seen) : Seen.Pres s s := fun _ _ hi => hi

theorem Seen.Pres.trans {a b c : Seen} (hab : Seen.Pres a b) (hbc : Seen.Pres b c) :
    Seen.Pres a c := fun k i hi => hbc k i (hab k i hi)

theorem Seen.get_bump (s : Seen) (k : SKey) : Seen.get (Seen.bump s) k = Seen.get s k := rfl

theorem Seen.pres_bump (s : Seen) : Seen.Pres s (Seen.bump s) := fun _ _ hi => hi

theorem Seen.get_set (s : Seen) (k k' : SKey) :
    Seen.get (Seen.set s k) k' = if k = k' then some s.size else Seen.get s k' := rfl

theorem Seen.pres_set {s : Seen} {k : SKey} (hk : Seen.get s k = none) :
    Seen.Pres s (Seen.set s k) := by
  intro k' i hi
  rw [Seen.get_set]
  by_cases hkk : k = k'
  · subst hkk; rw [hk] at hi; exact absurd hi (by simp)
  · rw [if_neg hkk]; exact hi

theorem serFieldsF_pres (rec : Seen → JSVal → Option (Option String × Seen))
    (hrec : ∀ s w r s', rec s w = some (r, s') → Seen.Pres s s') :
    ∀ seen l parts seen', serFieldsF rec seen l = some (parts, seen') → Seen.Pres seen seen' := by
  intro seen l
  induction l generalizing seen with
  | nil =>
    intro parts seen' hres
    simp only [serFieldsF, Option.some.injEq, Prod.mk.injEq] at hres
    rw [← hres.2]
    exact Seen.Pres.refl seen
  | cons kv rest ih =>
    intro parts seen' hres
    obtain ⟨k, v⟩ := kv
    cases hr : rec seen v with
    | none => simp [serFieldsF, hr] at hres
    | some p =>
      obtain ⟨r, seen1⟩ := p
      cases hrest : serFieldsF rec seen1 rest with
      | none => simp [serFieldsF, hr, hrest] at hres
      | some q =>
        obtain ⟨parts2, seen2⟩ := q
        have h12 : Seen.Pres seen seen2 :=
          Seen.Pres.trans (hrec _ _ _ _ hr) (ih seen1 parts2 seen2 hrest)
        simp only [serFieldsF, hr, hrest] at hres
        cases r with
        | none =>
          simp only [Option.some.injEq, Prod.mk.injEq] at hres
          rw [← hres.2]
          exact h12
        | some s =>
          simp only [Option.some.injEq, Prod.mk.injEq] at hres
          rw [← hres.2]
          exact h12

theorem serElemsF_pres (rec : Seen → JSVal → Option (Option String × Seen))
    (hrec : ∀ s w r s', rec s w = some (r, s') → Seen.Pres s s') :
    ∀ seen l parts seen', serElemsF rec seen l = some (parts, seen') → Seen.Pres seen seen' := by
  intro seen l
  induction l generalizing seen with
  | nil =>
    intro parts seen' hres
    simp only [serElemsF, Option.some.injEq, Prod.mk.injEq] at hres
    rw [← hres.2]
    exact Seen.Pres.refl seen
  | cons v rest ih =>
    intro parts seen' hres
    cases hr : rec seen v with
    | none => simp [serElemsF, hr] at hres
    | some p =>
      obtain ⟨r, seen1⟩ := p
      cases hrest : serElemsF rec seen1 rest with
      | none => simp [serElemsF, hr, hrest] at hres
      | some q =>
        obtain ⟨parts2, seen2⟩ := q
        simp only [serElemsF, hr, hrest, Option.some.injEq, Prod.mk.injEq] at hres
        rw [← hres.2]
        exact Seen.Pres.trans (hrec _ _ _ _ hr) (ih seen1 parts2 seen2 hrest)

theorem serPairsF_pres (rec : Seen → JSVal → Option (Option String × Seen))
    (hrec : ∀ s w r s', rec s w = some (r, s') → Seen.Pres s s') :
    ∀ seen l parts seen', serPairsF rec seen l = some (parts, seen') → Seen.Pres seen seen' := by
  intro seen l
  induction l generalizing seen with
  | nil =>
    intro parts seen' hres
    simp only [serPairsF, Option.some.injEq, Prod.mk.injEq] at hres
    rw [← hres.2]
    exact Seen.Pres.refl seen
  | cons kv rest ih =>
    intro parts seen' hres
    obtain ⟨k, v⟩ := kv
    cases hk : rec (Seen.bump seen) k with
    | none => simp [serPairsF, hk] at hres
    | some p =>
      obtain ⟨rk, seen1⟩ := p
      cases hv : rec seen1 v with
      | none => simp [serPairsF, hk, hv] at hres
      | some q =>
        obtain ⟨rv, seen2⟩ := q
        cases hrest : serPairsF rec seen2 rest with
        | none => simp [serPairsF, hk, hv, hrest] at hres
        | some w =>
          obtain ⟨parts3, seen3⟩ := w
          simp only [serPairsF, hk, hv, hrest, Option.some.injEq, Prod.mk.injEq] at hres
          rw [← hres.2]
          exact Seen.Pres.trans (Seen.pres_bump seen)
            (Seen.Pres.trans (hrec _ _ _ _ hk)
              (Seen.Pres.trans (hrec _ _ _ _ hv) (ih seen2 parts3 seen3 hrest)))

theorem serStep_pres (h : Heap) (inv : Bool)
    (rec : Seen → JSVal → Option (Option String × Seen))
    (hrec : ∀ s w r s', rec s w = some (r, s') → Seen.Pres s s') :
    ∀ seen v r seen', serStep h inv rec seen v = some (r, seen') → Seen.Pres seen seen' := by
  intro seen v r seen' hres
  cases v with
  | undef =>
    simp only [serStep, Option.some.injEq, Prod.mk.injEq] at hres
    rw [← hres.2]; exact Seen.Pres.refl seen
  | bool b =>
    simp only [serStep, Option.some.injEq, Prod.mk.injEq] at hres
    rw [← hres.2]; exact Seen.Pres.refl seen
  | num n =>
    simp only [serStep, Option.some.injEq, Prod.mk.injEq] at hres
    rw [← hres.2]; exact Seen.Pres.refl seen
  | str s =>
    simp only [serStep, Option.some.injEq, Prod.mk.injEq] at hres
    rw [← hres.2]; exact Seen.Pres.refl seen
  | null =>
    cases hg : Seen.get seen SKey.null with
    | some id =>
      simp only [serStep, hg, Option.some.injEq, Prod.mk.injEq] at hres
      rw [← hres.2]; exact Seen.Pres.refl seen
    | none =>
      simp only [serStep, hg, Option.some.injEq, Prod.mk.injEq] at hres
      rw [← hres.2]; exact Seen.pres_set hg
  | fn arity ret =>
    by_cases hc : arity = 0 ∧ inv = true
    · cases hr : rec seen ret with
      | none => simp [serStep, if_pos hc, hr] at hres
      | some p =>
        obtain ⟨r1, seen1⟩ := p
        simp only [serStep, if_pos hc, hr, Option.some.injEq, Prod.mk.injEq] at hres
        rw [← hres.2]
        exact hrec _ _ _ _ hr
    · simp only [serStep, if_neg hc, Option.some.injEq, Prod.mk.injEq] at hres
      rw [← hres.2]; exact Seen.Pres.refl seen
  | ref rr =>
    cases hg : Seen.get seen (SKey.ref rr) with
    | some id =>
      simp only [serStep, hg, Option.some.injEq, Prod.mk.injEq] at hres
      rw [← hres.2]; exact Seen.Pres.refl seen
    | none =>
      cases ho : Heap.get h rr with
      | map es =>
        cases hp : serPairsF rec (Seen.bump seen) es with
        | none => simp [serStep, hg, ho, hp] at hres
        | some p =>
          obtain ⟨parts, seen1⟩ := p
          simp only [serStep, hg, ho, hp, Option.some.injEq, Prod.mk.injEq] at hres
          rw [← hres.2]
          exact Seen.Pres.trans (Seen.pres_bump seen) (serPairsF_pres rec hrec _ _ _ _ hp)
      | set es =>
        cases hp : serElemsF rec (Seen.bump seen) es with
        | none => simp [serStep, hg, ho, hp] at hres
        | some p =>
          obtain ⟨parts, seen1⟩ := p
          simp only [serStep, hg, ho, hp, Option.some.injEq, Prod.mk.injEq] at hres
          rw [← hres.2]
          exact Seen.Pres.trans (Seen.pres_bump seen) (serElemsF_pres rec hrec _ _ _ _ hp)
      | obj fields =>
        cases hp : serFieldsF rec (Seen.set seen (SKey.ref rr)) fields with
        | none => simp [serStep, hg, ho, hp] at hres
        | some p =>
          obtain ⟨parts, seen1⟩ := p
          simp only [serStep, hg, ho, hp, Option.some.injEq, Prod.mk.injEq] at hres
          rw [← hres.2]
          exact Seen.Pres.trans (Seen.pres_set hg) (serFieldsF_pres rec hrec _ _ _ _ hp)
      | arr es =>
        cases hp : serElemsF rec (Seen.set seen (SKey.ref rr)) es with
        | none => simp [serStep, hg, ho, hp] at hres
        | some p =>
          obtain ⟨parts, seen1⟩ := p
          simp only [serStep, hg, ho, hp, Option.some.injEq, Prod.mk.injEq] at hres
          rw [← hres.2]
          exact Seen.Pres.trans (Seen.pres_set hg) (serElemsF_pres rec hrec _ _ _ _ hp)

theorem ser_pres (h : Heap) (inv : Bool) :
    ∀ fuel seen v r seen', ser h inv fuel seen v = some (r, seen') → Seen.Pres seen seen' := by
  intro fuel
  induction fuel with
  | zero =>
    intro seen v r seen' hres
    rw [ser_zero] at hres
    exact absurd hres (by simp)
  | succ fuel ih =>
    intro seen v r seen' hres
    rw [ser_succ] at hres
    exact serStep_pres h inv _ (fun s w r1 s1 hr => ih s w r1 s1 hr) seen v r seen' hres

/-- C2 (amended).  During one traversal, a composite found in the registry
(that is, a plain object or array being reached again, by reference
identity) is emitted as the string literal made of "[[ cyclic ref *", its
registered id and " ]]", without descending and without touching the
registry; and a plain object or array *not* yet registered is entered and
registered under id `seen.size` before its children run, so any completed
serialization leaves it registered with exactly that id.  Maps and Sets,
however, are never registered, so only plain composites (and, see C4,
`null`) are ever emitted as cyclic-reference markers. -/
theorem C2_revisit_marker_for_plain_composites :
    ∀ (h : Heap) (inv : Bool) (fuel : Nat) (seen : Seen) (r : Ref),
      (∀ id, Seen.get seen (SKey.ref r) = some id →
        ser h inv (fuel + 1) seen (JSVal.ref r) =
          some (some (jstr (cycMarker id)), seen)) ∧
      (∀ res seen', Seen.get seen (SKey.ref r) = none →
        HObj.isPlain (Heap.get h r) = true →
        ser h inv (fuel + 1) seen (JSVal.ref r) = some (res, seen') →
        Seen.get seen' (SKey.ref r) = some seen.size) := by
  intro h inv fuel seen r
  constructor
  · intro id hid
    rw [ser_succ]
    simp [serStep, hid]
  · intro res seen' hg hplain hser
    rw [ser_succ] at hser
    have hset : Seen.get (Seen.set seen (SKey.ref r)) (SKey.ref r) = some seen.size := by
      rw [Seen.get_set, if_pos rfl]
    cases ho : Heap.get h r with
    | map es => rw [ho] at hplain; exact absurd hplain (by simp [HObj.isPlain])
    | set es => rw [ho] at hplain; exact absurd hplain (by simp [HObj.isPlain])
    | obj fields =>
      cases hp : serFieldsF (ser h inv fuel) (Seen.set seen (SKey.ref r)) fields with
      | none => simp [serStep, hg, ho, hp] at hser
      | some p =>
        obtain ⟨parts, seen1⟩ := p
        simp only [serStep, hg, ho, hp, Option.some.injEq, Prod.mk.injEq] at hser
        rw [← hser.2]
        exact serFieldsF_pres _ (fun s w r1 s1 hr => ser_pres h inv fuel s w r1 s1 hr)
          _ _ _ _ hp _ _ hset
    | arr es =>
      cases hp : serElemsF (ser h inv fuel) (Seen.set seen (SKey.ref r)) es with
      | none => simp [serStep, hg, ho, hp] at hser
      | some p =>
        obtain ⟨parts, seen1⟩ := p
        simp only [serStep, hg, ho, hp, Option.some.injEq, Prod.mk.injEq] at hser
        rw [← hser.2]
        exact serElemsF_pres _ (fun s w r1 s1 hr => ser_pres h inv fuel s w r1 s1 hr)
          _ _ _ _ hp _ _ hset

/-- C2 witness: a reference already registered with id 0 is emitted as the
marker with id 0 and the registry is untouched; entering an unregistered
empty object registers it under the current registry size. -/
theorem C2_revisit_marker_for_plain_composites_witness :
    ser [HObj.obj []] false 1 (Seen.set Seen.empty (SKey.ref 0)) (JSVal.ref 0) =
      some (some (jstr (cycMarker 0)), Seen.set Seen.empty (SKey.ref 0)) ∧
    Seen.get (Seen.set Seen.empty (SKey.ref 0)) (SKey.ref 0) = some (Seen.empty).size :=
  ⟨(C2_revisit_marker_for_plain_composites [HObj.obj []] false 0
      (Seen.set Seen.empty (SKey.ref 0)) 0).1 0 rfl,
   (C2_revisit_marker_for_plain_composites [HObj.obj []] false 1 Seen.empty 0).2
      (some "\x7b\x7d") (Seen.set Seen.empty (SKey.ref 0)) rfl rfl rfl⟩

theorem filter_length_mono {α : Type} (p q : α → Bool) :
    ∀ l : List α, (∀ a ∈ l, p a = true → q a = true) →
      (l.filter p).length ≤ (l.filter q).length := by
  intro l
  induction l with
  | nil => intro _; exact Nat.le_refl 0
  | cons a rest ih =>
    intro hpq
    have hrest := ih fun b hb hp => hpq b (List.mem_cons_of_mem a hb) hp
    cases hp : p a with
    | true =>
      have hq := hpq a (List.mem_cons_self a rest) hp
      simp only [List.filter_cons, hp, hq, if_true, List.length_cons]
      exact Nat.succ_le_succ hrest
    | false =>
      cases hq : q a with
      | true =>
        simp only [List.filter_cons, hp, hq, List.length_cons, if_true, if_false,
          Bool.false_eq_true, reduceIte]
        exact Nat.le_succ_of_le hrest
      | false =>
        simp only [List.filter_cons, hp, hq, Bool.false_eq_true, reduceIte]
        exact hrest

theorem filter_length_lt {α : Type} (p q : α → Bool) :
    ∀ l : List α, (∀ a ∈ l, p a = true → q a = true) →
      ∀ b, b ∈ l → q b = true → p b = false →
      (l.filter p).length < (l.filter q).length := by
  intro l
  induction l with
  | nil => intro _ b hb _ _; cases hb
  | cons x rest ih =>
    intro hpq b hb hqb hpb
    have hpq' : ∀ a ∈ rest, p a = true → q a = true :=
      fun a ha hp => hpq a (List.mem_cons_of_mem x ha) hp
    rcases List.mem_cons.mp hb with hbx | hbr
    · subst hbx
      simp only [List.filter_cons, hpb, hqb, if_true, Bool.false_eq_true, reduceIte,
        List.length_cons]
      exact Nat.lt_succ_of_le (filter_length_mono p q rest hpq')
    · cases hpx : p x with
      | true =>
        have hqx := hpq x (List.mem_cons_self x rest) hpx
        simp only [List.filter_cons, hpx, hqx, if_true, List.length_cons]
        exact Nat.succ_lt_succ (ih hpq' b hbr hqb hpb)
      | false =>
        cases hqx : q x with
        | true =>
          simp only [List.filter_cons, hpx, hqx, if_true, Bool.false_eq_true, reduceIte,
            List.length_cons]
          exact Nat.lt_succ_of_lt (ih hpq' b hbr hqb hpb)
        | false =>
          simp only [List.filter_cons, hpx, hqx, Bool.false_eq_true, reduceIte]
          exact ih hpq' b hbr hqb hpb

theorem Seen.mem_of_pres {s1 s2 : Seen} (hp : Seen.Pres s1 s2) {k : SKey}
    (hm : Seen.mem s1 k = true) : Seen.mem s2 k = true := by
  unfold Seen.mem at hm ⊢
  cases hg : Seen.get s1 k with
  | none => rw [hg] at hm; exact absurd hm (by simp)
  | some i => rw [hp k i hg]; rfl

theorem unseen_le_of_pres {h : Heap} {s1 s2 : Seen} (hp : Seen.Pres s1 s2) :
    unseenCount h s2 ≤ unseenCount h s1 := by
  unfold unseenCount
  apply filter_length_mono
  intro a _ ha
  cases hm : Seen.mem s1 (SKey.ref a) with
  | false => rfl
  | true => rw [Seen.mem_of_pres hp hm] at ha; exact absurd ha (by simp)

theorem unseen_set_lt {h : Heap} {s : Seen} {r : Ref} (hr : r < h.length)
    (hm : Seen.mem s (SKey.ref r) = false) :
    unseenCount h (Seen.set s (SKey.ref r)) < unseenCount h s := by
  unfold unseenCount
  apply filter_length_lt _ _ _ ?_ r (List.mem_range.mpr hr) ?_ ?_
  · intro a _ hpa
    cases hma : Seen.mem s (SKey.ref a) with
    | false => rfl
    | true =>
      have hset : Seen.mem (Seen.set s (SKey.ref r)) (SKey.ref a) = true := by
        unfold Seen.mem at hma ⊢
        rw [Seen.get_set]
        by_cases hra : SKey.ref r = SKey.ref a
        · rw [if_pos hra]; rfl
        · rw [if_neg hra]; exact hma
      rw [hset] at hpa
      exact absurd hpa (by simp)
  · rw [hm]; rfl
  · have hset : Seen.mem (Seen.set s (SKey.ref r)) (SKey.ref r) = true := by
      unfold Seen.mem
      rw [Seen.get_set, if_pos rfl]
      rfl
    rw [hset]
    rfl

theorem Heap.get_mem : ∀ (h : Heap) (r : Ref), r < h.length → Heap.get h r ∈ h := by
  intro h
  induction h with
  | nil => intro r hr; exact absurd hr (by simp)
  | cons o rest ih =>
    intro r hr
    cases r with
    | zero => exact List.mem_cons_self o rest
    | succ r =>
      exact List.mem_cons_of_mem o (ih r (Nat.lt_of_succ_lt_succ hr))

theorem heap_obj_wf {h : Heap} (hwf : Heap.wfB h = true) {r : Ref} (hr : r < h.length) :
    HObj.wfB h.length (Heap.get h r) = true := by
  unfold Heap.wfB at hwf
  rw [List.all_eq_true] at hwf
  exact hwf _ (Heap.get_mem h r hr)

theorem heap_get_plain {h : Heap} (hms : Heap.noMapSetB h = true) {r : Ref}
    (hr : r < h.length) : HObj.isPlain (Heap.get h r) = true := by
  unfold Heap.noMapSetB at hms
  rw [List.all_eq_true] at hms
  have := hms _ (Heap.get_mem h r hr)
  cases ho : Heap.get h r with
  | obj fs => rfl
  | arr es => rfl
  | map es => rw [ho] at this; exact absurd this (by simp)
  | set es => rw [ho] at this; exact absurd this (by simp)

theorem serFieldsF_total (h : Heap) (inv : Bool) (m : Nat)
    (HS : ∀ seen, unseenCount h seen ≤ m → ∀ v, JSVal.wfB h.length v = true →
      ∃ fuel r seen', ser h inv fuel seen v = some (r, seen')) :
    ∀ l seen, unseenCount h seen ≤ m → (∀ kv ∈ l, JSVal.wfB h.length (Prod.snd kv) = true) →
      ∃ fuel parts seen', serFieldsF (ser h inv fuel) seen (l : List (String × JSVal)) =
        some (parts, seen') := by
  intro l
  induction l with
  | nil => intro seen _ _; exact ⟨0, [], seen, rfl⟩
  | cons kv rest ih =>
    intro seen hm hwf
    obtain ⟨k, v⟩ := kv
    obtain ⟨fuel1, r1, seen1, h1⟩ := HS seen hm v (hwf (k, v) (List.mem_cons_self _ rest))
    have hm1 : unseenCount h seen1 ≤ m :=
      le_trans (unseen_le_of_pres (ser_pres h inv fuel1 seen v r1 seen1 h1)) hm
    obtain ⟨fuel2, parts2, seen2, h2⟩ :=
      ih seen1 hm1 (fun w hw => hwf w (List.mem_cons_of_mem _ hw))
    have h1' : ser h inv (max fuel1 fuel2) seen v = some (r1, seen1) :=
      ser_mono_le h inv (Nat.le_max_left _ _) _ _ _ h1
    have h2' : serFieldsF (ser h inv (max fuel1 fuel2)) seen1 rest = some (parts2, seen2) :=
      serFieldsF_mono_rec _ _
        (fun s w res hr => ser_mono_le h inv (Nat.le_max_right _ _) s w res hr) _ _ _ h2
    cases r1 with
    | none => exact ⟨max fuel1 fuel2, parts2, seen2, by simp [serFieldsF, h1', h2']⟩
    | some s1 =>
      exact ⟨max fuel1 fuel2, renderField k s1 :: parts2, seen2,
        by simp [serFieldsF, h1', h2']⟩

theorem serElemsF_total (h : Heap) (inv : Bool) (m : Nat)
    (HS : ∀ seen, unseenCount h seen ≤ m → ∀ v, JSVal.wfB h.length v = true →
      ∃ fuel r seen', ser h inv fuel seen v = some (r, seen')) :
    ∀ l seen, unseenCount h seen ≤ m → (∀ v ∈ l, JSVal.wfB h.length v = true) →
      ∃ fuel parts seen', serElemsF (ser h inv fuel) seen (l : List JSVal) =
        some (parts, seen') := by
  intro l
  induction l with
  | nil => intro seen _ _; exact ⟨0, [], seen, rfl⟩
  | cons v rest ih =>
    intro seen hm hwf
    obtain ⟨fuel1, r1, seen1, h1⟩ := HS seen hm v (hwf v (List.mem_cons_self _ rest))
    have hm1 : unseenCount h seen1 ≤ m :=
      le_trans (unseen_le_of_pres (ser_pres h inv fuel1 seen v r1 seen1 h1)) hm
    obtain ⟨fuel2, parts2, seen2, h2⟩ :=
      ih seen1 hm1 (fun w hw => hwf w (List.mem_cons_of_mem _ hw))
    have h1' : ser h inv (max fuel1 fuel2) seen v = some (r1, seen1) :=
      ser_mono_le h inv (Nat.le_max_left _ _) _ _ _ h1
    have h2' : serElemsF (ser h inv (max fuel1 fuel2)) seen1 rest = some (parts2, seen2) :=
      serElemsF_mono_rec _ _
        (fun s w res hr => ser_mono_le h inv (Nat.le_max_right _ _) s w res hr) _ _ _ h2
    exact ⟨max fuel1 fuel2, Option.getD r1 "null" :: parts2, seen2,
      by simp [serElemsF, h1', h2']⟩

theorem ser_total (h : Heap) (inv : Bool) (hwf : Heap.wfB h = true)
    (hms : Heap.noMapSetB h = true) :
    ∀ n seen, unseenCount h seen ≤ n → ∀ v, JSVal.wfB h.length v = true →
      ∃ fuel r seen', ser h inv fuel seen v = some (r, seen') := by
  intro n
  induction n using Nat.strong_induction_on with
  | _ n IH =>
    intro seen hn v
    induction v with
    | null =>
      intro _
      cases hg : Seen.get seen SKey.null with
      | some id =>
        exact ⟨1, some (jstr (cycMarker id)), seen, by rw [ser_succ]; simp [serStep, hg]⟩
      | none =>
        exact ⟨1, some "null", Seen.set seen SKey.null, by rw [ser_succ]; simp [serStep, hg]⟩
    | undef => intro _; exact ⟨1, none, seen, by rw [ser_succ]; rfl⟩
    | bool b =>
      intro _
      exact ⟨1, some (if b then "true" else "false"), seen, by rw [ser_succ]; rfl⟩
    | num i => intro _; exact ⟨1, some (toString i), seen, by rw [ser_succ]; rfl⟩
    | str s => intro _; exact ⟨1, some (jstr s), seen, by rw [ser_succ]; rfl⟩
    | fn arity ret ihret =>
      intro hv
      by_cases hc : arity = 0 ∧ inv = true
      · obtain ⟨fuel1, r1, seen1, h1⟩ := ihret hv
        exact ⟨fuel1 + 1, some (renderFnWrap r1), seen1,
          by rw [ser_succ]; simp [serStep, if_pos hc, h1]⟩
      · exact ⟨1, some (jstr (fnMarker arity)), seen,
          by rw [ser_succ]; simp [serStep, if_neg hc]⟩
    | ref rr =>
      intro hv
      have hr : rr < h.length := of_decide_eq_true hv
      cases hg : Seen.get seen (SKey.ref rr) with
      | some id =>
        exact ⟨1, some (jstr (cycMarker id)), seen, by rw [ser_succ]; simp [serStep, hg]⟩
      | none =>
        have hmem : Seen.mem seen (SKey.ref rr) = false := by
          unfold Seen.mem; rw [hg]; rfl
        have hlt : unseenCount h (Seen.set seen (SKey.ref rr)) < unseenCount h seen :=
          unseen_set_lt hr hmem
        have hn' : unseenCount h (Seen.set seen (SKey.ref rr)) < n :=
          Nat.lt_of_lt_of_le hlt hn
        have HS := IH (unseenCount h (Seen.set seen (SKey.ref rr))) hn'
        have hawf := heap_obj_wf hwf hr
        have hplain := heap_get_plain hms hr
        cases ho : Heap.get h rr with
        | map es => rw [ho] at hplain; exact absurd hplain (by simp [HObj.isPlain])
        | set es => rw [ho] at hplain; exact absurd hplain (by simp [HObj.isPlain])
        | obj fields =>
          rw [ho] at hawf
          unfold HObj.wfB at hawf
          rw [List.all_eq_true] at hawf
          obtain ⟨fuel1, parts, seen1, hf⟩ :=
            serFieldsF_total h inv _ HS fields (Seen.set seen (SKey.ref rr))
              (Nat.le_refl _) hawf
          exact ⟨fuel1 + 1, some (renderObj parts), seen1,
            by rw [ser_succ]; simp [serStep, hg, ho, hf]⟩
        | arr es =>
          rw [ho] at hawf
          unfold HObj.wfB at hawf
          rw [List.all_eq_true] at hawf
          obtain ⟨fuel1, parts, seen1, hf⟩ :=
            serElemsF_total h inv _ HS es (Seen.set seen (SKey.ref rr))
              (Nat.le_refl _) hawf
          exact ⟨fuel1 + 1, some (renderArr parts), seen1,
            by rw [ser_succ]; simp [serStep, hg, ho, hf]⟩

/-- C1 (amended).  `toJSON` terminates on every well-formed input graph made
of primitives, functions, plain objects and arrays — including every
self-referential such graph — because a plain composite is registered before
its children are visited and a registered composite is replaced by the
cyclic-reference marker instead of being descended into again.  The claim's
inclusion of Maps and Sets is wrong: they are re-expressed without ever
being registered, so a cycle running through a Map or Set (see the
counterexample) makes the traversal recurse forever. -/
theorem C1_terminates_on_plain_graphs :
    ∀ (h : Heap) (v : JSVal) (inv : Bool),
      Heap.wfB h = true → Heap.noMapSetB h = true → JSVal.wfB h.length v = true →
      ∃ fuel r, toJSON fuel h v inv = some r ∧
        ∀ m, fuel ≤ m → toJSON m h v inv = some r := by
  intro h v inv hwf hms hv
  obtain ⟨fuel, r, seen', hser⟩ :=
    ser_total h inv hwf hms (unseenCount h Seen.empty) Seen.empty (Nat.le_refl _) v hv
  have htj : toJSON fuel h v inv = some r := by
    unfold toJSON
    rw [hser]
  exact ⟨fuel, r, htj, fun m hm => toJSON_mono_le hm htj⟩

/-- C1 witness: the self-cycle graph of C6 is well formed, Map/Set-free, and
the theorem yields a terminating, fuel-stable run on it. -/
theorem C1_terminates_on_plain_graphs_witness :
    ∃ fuel r, toJSON fuel selfObjHeap (JSVal.ref 0) false = some r ∧
      ∀ m, fuel ≤ m → toJSON m selfObjHeap (JSVal.ref 0) false = some r :=
  C1_terminates_on_plain_graphs selfObjHeap (JSVal.ref 0) false (by decide) (by decide)
    (by decide)
